import Mathlib

/-!
Verification of the synchronization engine of `robust_backfill_v2.py`
(class `RobustBackfillerV2`) together with the deduplicating save of
`routescan_fetcher.py`.  Each definition is a shallow embedding of the
corresponding Python function; machine integers are modelled as `Nat`
(Python integers are unbounded, so no wrap-around is needed), wall-clock
time as `ℚ`, the external HTTP API as an oracle function, and the
filesystem visible to `save_transactions` as an explicit record.
-/

/-- `TOKEN_START_BLOCK` from `robust_backfill_v2.py`. -/
def TOKEN_START_BLOCK : Nat := 38699339

/-- `MAX_RESULTS_PER_QUERY` from `robust_backfill_v2.py`. -/
def MAX_RESULTS_PER_QUERY : Nat := 10000

/-- `MIN_BLOCK_RANGE` from `robust_backfill_v2.py`. -/
def MIN_BLOCK_RANGE : Nat := 100

/-- `MAX_BLOCK_RANGE` from `robust_backfill_v2.py`. -/
def MAX_BLOCK_RANGE : Nat := 5000

/-- A transaction record, as the Python dicts returned by the explorer API.
`hash := none` models a record whose `'hash'` key is missing (`tx.get('hash')`
is `None`); `hash := some ""` an empty string — both are falsy in Python.
`blockNumber := none` models a missing or empty `'blockNumber'` string, and
`blockNumber := some n` a numeral string parsing to `n` (the code always
guards `int(tx.get('blockNumber', 0))` with a truthiness test, so the two
falsy cases behave alike).  `payload` stands for all remaining fields, so two
records with equal hashes need not be equal. -/
structure Tx where
  hash : Option String
  blockNumber : Option Nat
  payload : String
deriving DecidableEq, Repr

/-- One pass of the dedup loop of `RobustBackfillerV2.save_transactions`
(lines 250–254: `if tx_hash and tx_hash not in unique_txs`), keeping the
first occurrence of each truthy hash.  The iteration over the
insertion-ordered `unique_txs` dict is the same as emitting each kept
record at the point of first insertion, which is what this function does.
The per-cycle filter of `run_continuous` (lines 331–334,
`if tx.get('hash') and tx.get('hash') not in existing_hashes`) and the
seen-set loop of `RoutescanFetcher.save_transactions` have the identical
shape, with `seen` the starting hash set. -/
def dedupGo (seen : List String) : List Tx → List Tx
  | [] => []
  | tx :: rest =>
    if tx.hash.getD "" ≠ "" ∧ tx.hash.getD "" ∉ seen then
      tx :: dedupGo (tx.hash.getD "" :: seen) rest
    else dedupGo seen rest

/-- The hash set accumulated by the dedup loop after processing a list.
(`tx.hash.getD "" ≠ ""` is Python's truthiness test on `tx.get('hash')`:
it fails exactly for a missing key and for the empty string.) -/
def seenAfter (seen : List String) : List Tx → List String
  | [] => seen
  | tx :: rest =>
    if tx.hash.getD "" ≠ "" ∧ tx.hash.getD "" ∉ seen then
      seenAfter (tx.hash.getD "" :: seen) rest
    else seenAfter seen rest

/-- The dedup pass of `save_transactions` on the concatenated list
(`all_transactions = existing_txs + new_transactions`). -/
def dedupByHash (txs : List Tx) : List Tx := dedupGo [] txs

/-- `merge` of the record store: `save_transactions` concatenates the
existing store with the incoming batch and deduplicates by hash
(`robust_backfill_v2.py` lines 247–256). -/
def mergeTxs (existing incoming : List Tx) : List Tx :=
  dedupByHash (existing ++ incoming)

/-- The filesystem as seen by `save_transactions`: the canonical
`transactions.json` content and the content of the temp file from
`tempfile.mkstemp`, when it exists. -/
structure FsState where
  canonical : List Tx
  temp : Option (List Tx)
deriving DecidableEq, Repr

/-- The primitive filesystem operations `save_transactions` performs. -/
inductive FsOp where
  | mkstemp
  | writeTemp (txs : List Tx)
  | renameTempToCanonical
  | removeTemp
deriving DecidableEq, Repr

/-- Effect of one filesystem operation.  `renameTempToCanonical` models
`shutil.move(temp_path, 'transactions.json')`, a single atomic rename that
replaces the canonical content with the temp content in one step. -/
def applyOp (s : FsState) : FsOp → FsState
  | .mkstemp => { s with temp := some [] }
  | .writeTemp txs => { s with temp := some txs }
  | .renameTempToCanonical =>
    match s.temp with
    | some t => { canonical := t, temp := none }
    | none => s
  | .removeTemp => { s with temp := none }

/-- Run a sequence of filesystem operations. -/
def runOps (s : FsState) (ops : List FsOp) : FsState := ops.foldl applyOp s

/-- The operation sequence of the `try` block of `save_transactions`
(lines 259–264): create the temp file, write the merged list to it fully,
atomically rename it over `transactions.json`. -/
def saveOps (final : List Tx) : List FsOp :=
  [FsOp.mkstemp, FsOp.writeTemp final, FsOp.renameTempToCanonical]

/-- Result of `save_transactions`: the filesystem afterwards, the Python
return value (`none` when an exception escapes instead of returning), and
whether an exception escapes to `run_continuous`. -/
structure SaveResult where
  fs : FsState
  returned : Option (List Tx)
  raised : Bool
deriving DecidableEq, Repr

/-- `RobustBackfillerV2.save_transactions` (lines 245–270).  `stepsRun` is
the number of operations of `saveOps` that complete before an exception is
thrown (`3` or more: no exception).  When `tempfile.mkstemp` itself fails
(`stepsRun = 0`), `temp_path` is unbound, so the handler's
`os.path.exists(temp_path)` raises `UnboundLocalError`, which escapes to
`run_continuous` (`raised = true`, nothing returned, filesystem
untouched).  On a failure after the temp file exists the handler prints,
removes the temp file, and falls through to `return final_txs`, so the
merged list is returned exactly as on success and no error escapes. -/
def save_transactions (fs : FsState) (existing incoming : List Tx)
    (stepsRun : Nat) : SaveResult :=
  let final := mergeTxs existing incoming
  let fs1 := runOps fs ((saveOps final).take stepsRun)
  if stepsRun = 0 then
    { fs := fs1, returned := none, raised := true }
  else if stepsRun < (saveOps final).length then
    { fs := applyOp fs1 .removeTemp, returned := some final, raised := false }
  else
    { fs := fs1, returned := some final, raised := false }

/-- `RobustBackfillerV2.identify_gaps` internal-gap loop (lines 220–223):
for each consecutive pair of observed blocks more than `1000` apart,
emit the skipped interval. -/
def internalGaps : List Nat → List (Nat × Option Nat)
  | [] => []
  | [_] => []
  | a :: b :: rest =>
    (if 1000 < b - a then [(a + 1, some (b - 1))] else []) ++
      internalGaps (b :: rest)

/-- `sorted(set(int(tx.get('blockNumber', 0)) for tx in transactions if
tx.get('blockNumber')))` (line 212): the ascending list of distinct block
numbers present in the records. -/
def sortedBlocks (txs : List Tx) : List Nat :=
  (List.insertionSort (· ≤ ·) (txs.filterMap Tx.blockNumber)).dedup

/-- `RobustBackfillerV2.identify_gaps` (lines 207–225).  Returns `none`
for the `IndexError` raised by `blocks[0]` when the record list is
non-empty but no record carries a block number. -/
def identify_gaps (txs : List Tx) : Option (List (Nat × Option Nat)) :=
  if txs.isEmpty then some [(TOKEN_START_BLOCK, none)]
  else if sortedBlocks txs = [] then none
  else
    some ((if TOKEN_START_BLOCK < (sortedBlocks txs).headI
           then [(TOKEN_START_BLOCK, some ((sortedBlocks txs).headI - 1))]
           else []) ++
          internalGaps (sortedBlocks txs))

/-- `RobustBackfillerV2.fetch_range` (lines 158–205).  `api s e` is the
result of `_make_request(s, e)`: `none` for a request that fails after all
retries, `some results` otherwise.  The `while current_start <= end_block`
loop is the tail recursion advancing the first argument; a capped result
with a window above the minimum recurses on the same start cursor with the
halved window (line 191) and discards the capped batch.  The `1 ≤ br`
guard is a totality artefact: the Python loop never terminates when
`block_range = 0`, and every call in the program has
`block_range ≥ MIN_BLOCK_RANGE`. -/
def fetch_range (api : Nat → Nat → Option (List Tx)) (cs e br : Nat) :
    List Tx :=
  if h : cs ≤ e ∧ 1 ≤ br then
    match api cs (min (cs + br - 1) e) with
    | none => fetch_range api (min (cs + br - 1) e + 1) e br
    | some results =>
      if MAX_RESULTS_PER_QUERY - 10 ≤ results.length then
        if MIN_BLOCK_RANGE < br then
          fetch_range api cs (min (cs + br - 1) e)
              (max (br / 2) MIN_BLOCK_RANGE) ++
            fetch_range api (min (cs + br - 1) e + 1) e br
        else results ++ fetch_range api (min (cs + br - 1) e + 1) e br
      else results ++ fetch_range api (min (cs + br - 1) e + 1) e br
  else []
termination_by e + 1 - cs + br
decreasing_by
  all_goals (obtain ⟨h1, h2⟩ := h; omega)

/-- The block windows `fetch_range` passes to `_make_request`, in order:
the same recursion as `fetch_range`, recording each `(current_start,
current_end)` query instead of the returned records. -/
def queriedWindows (api : Nat → Nat → Option (List Tx)) (cs e br : Nat) :
    List (Nat × Nat) :=
  if h : cs ≤ e ∧ 1 ≤ br then
    (cs, min (cs + br - 1) e) ::
      (match api cs (min (cs + br - 1) e) with
       | none => queriedWindows api (min (cs + br - 1) e + 1) e br
       | some results =>
         if MAX_RESULTS_PER_QUERY - 10 ≤ results.length then
           if MIN_BLOCK_RANGE < br then
             queriedWindows api cs (min (cs + br - 1) e)
                 (max (br / 2) MIN_BLOCK_RANGE) ++
               queriedWindows api (min (cs + br - 1) e + 1) e br
           else queriedWindows api (min (cs + br - 1) e + 1) e br
         else queriedWindows api (min (cs + br - 1) e + 1) e br)
  else []
termination_by e + 1 - cs + br
decreasing_by
  all_goals (obtain ⟨h1, h2⟩ := h; omega)

/-- `max` of a non-empty Python sequence of naturals, as the fold the
generator expression produces (all block numbers are ≥ 0, so seeding the
fold with 0 returns the same value Python's `max` does). -/
def maxBlock (l : List Nat) : Nat := l.foldl Nat.max 0

/-- The checkpoint computation of `run_continuous` (lines 309–313):
`current_max = max(int(tx.get('blockNumber', 0)) for tx in existing_txs if
tx.get('blockNumber'))` when the store is non-empty, else
`TOKEN_START_BLOCK - 1`.  Returns `none` for the `ValueError` Python's
`max` raises on a non-empty store in which no record carries a block
number. -/
def computeCheckpoint (existing : List Tx) : Option Nat :=
  if existing.isEmpty then some (TOKEN_START_BLOCK - 1)
  else
    match existing.filterMap Tx.blockNumber with
    | [] => none
    | b :: bs => some (maxBlock (b :: bs))

/-- The windows queried by the extend-to-head phase of `run_continuous`
(lines 344–350): `fetch_range(current_max + 1, current_block)` with the
default window size, guarded by `if current_max < current_block`. -/
def extendWindows (api : Nat → Nat → Option (List Tx))
    (currentMax head : Nat) : List (Nat × Nat) :=
  if currentMax < head then
    queriedWindows api (currentMax + 1) head MAX_BLOCK_RANGE
  else []

/-- The gap-filling loop's range resolution (lines 318–322): an open-ended
gap `(start, None)` gets `end = current_max`, and a gap with `end < start`
is skipped (`continue`).  Returns the list of ranges actually fetched. -/
def gapFillPlan (gaps : List (Nat × Option Nat)) (currentMax : Nat) :
    List (Nat × Nat) :=
  gaps.filterMap fun g =>
    if g.2.getD currentMax < g.1 then none else some (g.1, g.2.getD currentMax)

/-- `RobustBackfillerV2._rate_limit_wait` (lines 92–97) over idealized
rational wall-clock time: `now` is the clock when the call starts, `last`
the recorded `last_request_time`.  `time.sleep(1.0 - elapsed)` advances
the clock by exactly that amount, after which `last_request_time =
time.time()` records the new clock; the returned value is both. -/
def rateLimitWait (now last : ℚ) : ℚ :=
  if now - last < 1 then now + (1 - (now - last)) else now

/-- `RobustBackfillerV2._rotate_key` (lines 88–90):
`current_key_index = (current_key_index + 1) % len(self.api_keys)`. -/
def rotateKey (i n : Nat) : Nat := (i + 1) % n

/-- One attempt's classified outcome inside `_make_request`
(lines 115–154). -/
inductive Attempt where
  /-- HTTP 429: rotate the key, sleep 30 s, and retry. -/
  | tooMany
  /-- HTTP 200 with `status == '1'` and `message == 'OK'`. -/
  | okList (txs : List Tx)
  /-- HTTP 200 with `'No transactions found'` in the message. -/
  | noneFound
  /-- HTTP 200 with `'rate limit'` in the body: rotate, sleep, retry. -/
  | rateBody
  /-- HTTP 200 with any other API error message: return `None`. -/
  | apiErr
  /-- Non-200 status: back off and retry. -/
  | httpErr
  /-- `requests` raised: back off and retry. -/
  | exnRaised
deriving DecidableEq, Repr

/-- The retry loop of `_make_request` (lines 115–156) on the attempt
outcomes the network produces, threading the key index: returns the
Python return value (`none` for `return None` and for retries
exhausted) together with the key index afterwards.  `n` is the key-pool
size.  The real call runs with `attempts.length = max_retries = 5`. -/
def makeRequestGo (n : Nat) : List Attempt → Nat → Option (List Tx) × Nat
  | [], key => (none, key)
  | a :: rest, key =>
    match a with
    | .tooMany => makeRequestGo n rest (rotateKey key n)
    | .rateBody => makeRequestGo n rest (rotateKey key n)
    | .okList txs => (some txs, key)
    | .noneFound => (some [], key)
    | .apiErr => (none, key)
    | .httpErr => makeRequestGo n rest key
    | .exnRaised => makeRequestGo n rest key

/-- `max_saved_block` of `run_continuous` (lines 367–368):
`max(blocks) if blocks else 0` over the block numbers of the final
record list (`maxBlock [] = 0`, matching the explicit `else 0`). -/
def maxSavedBlock (finalTxs : List Tx) : Nat :=
  maxBlock (finalTxs.filterMap Tx.blockNumber)

/-- The caught-up test of `run_continuous` (line 370):
`max_saved_block >= current_block - 100`, over Python's signed integers. -/
def caughtUp (finalTxs : List Tx) (currentBlock : Nat) : Bool :=
  (currentBlock : Int) - 100 ≤ (maxSavedBlock finalTxs : Int)

/-- The sleep the cycle ends with (lines 370–377): 60 s when caught up,
else 5 s. -/
def cycleSleep (finalTxs : List Tx) (currentBlock : Nat) : Nat :=
  if caughtUp finalTxs currentBlock then 60 else 5


/-! ## Dedup lemmas -/

theorem hash_of_truthy {tx : Tx} (h : tx.hash.getD "" ≠ "") :
    tx.hash = some (tx.hash.getD "") := by
  cases htx : tx.hash with
  | none => simp [htx] at h
  | some h' => simp [htx]

theorem dedupGo_congr {s₁ s₂ : List String} (l : List Tx)
    (hs : ∀ x, x ∈ s₁ ↔ x ∈ s₂) : dedupGo s₁ l = dedupGo s₂ l := by
  induction l generalizing s₁ s₂ with
  | nil => rfl
  | cons tx rest ih =>
    simp only [dedupGo]
    by_cases hc : tx.hash.getD "" ≠ "" ∧ tx.hash.getD "" ∉ s₁
    · rw [if_pos hc, if_pos ⟨hc.1, fun hm => hc.2 ((hs _).mpr hm)⟩]
      have hs' : ∀ x, x ∈ tx.hash.getD "" :: s₁ ↔ x ∈ tx.hash.getD "" :: s₂ := by
        intro x; simp only [List.mem_cons]; rw [hs x]
      rw [ih hs']
    · rw [if_neg hc, if_neg (by
        intro hc2
        exact hc ⟨hc2.1, fun hm => hc2.2 ((hs _).mp hm)⟩)]
      exact ih hs

theorem mem_seenAfter_congr {s₁ s₂ : List String} (l : List Tx)
    (hs : ∀ x, x ∈ s₁ ↔ x ∈ s₂) :
    ∀ x, x ∈ seenAfter s₁ l ↔ x ∈ seenAfter s₂ l := by
  induction l generalizing s₁ s₂ with
  | nil => simpa [seenAfter] using hs
  | cons tx rest ih =>
    simp only [seenAfter]
    by_cases hc : tx.hash.getD "" ≠ "" ∧ tx.hash.getD "" ∉ s₁
    · rw [if_pos hc, if_pos ⟨hc.1, fun hm => hc.2 ((hs _).mpr hm)⟩]
      exact ih fun x => by simp only [List.mem_cons]; rw [hs x]
    · rw [if_neg hc, if_neg (by
        intro hc2
        exact hc ⟨hc2.1, fun hm => hc2.2 ((hs _).mp hm)⟩)]
      exact ih hs

theorem dedupGo_append (s : List String) (l m : List Tx) :
    dedupGo s (l ++ m) = dedupGo s l ++ dedupGo (seenAfter s l) m := by
  induction l generalizing s with
  | nil => rfl
  | cons tx rest ih =>
    simp only [List.cons_append, dedupGo, seenAfter]
    by_cases hc : tx.hash.getD "" ≠ "" ∧ tx.hash.getD "" ∉ s
    · simp only [if_pos hc, List.cons_append]
      exact congrArg _ (ih _)
    · simp only [if_neg hc]
      exact ih s

theorem mem_seenAfter_mono {s : List String} {x : String} (l : List Tx)
    (hx : x ∈ s) : x ∈ seenAfter s l := by
  induction l generalizing s with
  | nil => exact hx
  | cons tx rest ih =>
    simp only [seenAfter]
    by_cases hc : tx.hash.getD "" ≠ "" ∧ tx.hash.getD "" ∉ s
    · rw [if_pos hc]; exact ih (List.mem_cons_of_mem _ hx)
    · rw [if_neg hc]; exact ih hx

theorem mem_seenAfter_of_mem {s : List String} {l : List Tx} {tx : Tx}
    {h : String} (htx : tx ∈ l) (hh : tx.hash = some h) (hne : h ≠ "") :
    h ∈ seenAfter s l := by
  induction l generalizing s with
  | nil => cases htx
  | cons t rest ih =>
    rcases List.mem_cons.mp htx with rfl | hmem
    · have hg : tx.hash.getD "" = h := by rw [hh]; rfl
      simp only [seenAfter]
      by_cases hc : tx.hash.getD "" ≠ "" ∧ tx.hash.getD "" ∉ s
      · rw [if_pos hc, hg]
        exact mem_seenAfter_mono rest (List.mem_cons_self h _)
      · rw [if_neg hc]
        have hin : h ∈ s := by
          rcases not_and_or.mp hc with hc1 | hc2
          · exact absurd (hg.symm.trans (not_not.mp hc1)) hne
          · exact hg ▸ not_not.mp hc2
        exact mem_seenAfter_mono rest hin
    · simp only [seenAfter]
      by_cases hc : t.hash.getD "" ≠ "" ∧ t.hash.getD "" ∉ s
      · rw [if_pos hc]; exact ih hmem
      · rw [if_neg hc]; exact ih hmem

theorem mem_dedupGo {s : List String} {l : List Tx} {tx : Tx}
    (htx : tx ∈ dedupGo s l) :
    tx ∈ l ∧ ∃ h, tx.hash = some h ∧ h ≠ "" ∧ h ∉ s := by
  induction l generalizing s with
  | nil => cases htx
  | cons t rest ih =>
    simp only [dedupGo] at htx
    by_cases hc : t.hash.getD "" ≠ "" ∧ t.hash.getD "" ∉ s
    · rw [if_pos hc] at htx
      rcases List.mem_cons.mp htx with rfl | hmem
      · exact ⟨List.mem_cons_self _ _, _, hash_of_truthy hc.1, hc⟩
      · obtain ⟨hmem', h', hh', hne', hns'⟩ := ih hmem
        refine ⟨List.mem_cons_of_mem _ hmem', h', hh', hne', fun hin => ?_⟩
        exact hns' (List.mem_cons_of_mem _ hin)
    · rw [if_neg hc] at htx
      obtain ⟨hmem, hh⟩ := ih htx
      exact ⟨List.mem_cons_of_mem _ hmem, hh⟩

theorem mem_seenAfter_dedupGo (s : List String) (l : List Tx) :
    ∀ x, x ∈ seenAfter s (dedupGo s l) ↔ x ∈ seenAfter s l := by
  induction l generalizing s with
  | nil => intro x; rfl
  | cons tx rest ih =>
    intro x
    simp only [dedupGo, seenAfter]
    by_cases hc : tx.hash.getD "" ≠ "" ∧ tx.hash.getD "" ∉ s
    · rw [if_pos hc]
      simp only [seenAfter, if_pos hc]
      exact ih _ x
    · rw [if_neg hc, if_neg hc]
      exact ih s x

theorem dedupGo_dedupGo {s₁ s₂ : List String} (l : List Tx)
    (hs : ∀ x, x ∈ s₁ ↔ x ∈ s₂) :
    dedupGo s₁ (dedupGo s₂ l) = dedupGo s₂ l := by
  induction l generalizing s₁ s₂ with
  | nil => rfl
  | cons tx rest ih =>
    simp only [dedupGo]
    by_cases hc : tx.hash.getD "" ≠ "" ∧ tx.hash.getD "" ∉ s₂
    · rw [if_pos hc]
      simp only [dedupGo]
      rw [if_pos ⟨hc.1, fun hm => hc.2 ((hs _).mp hm)⟩]
      rw [ih fun x => by simp only [List.mem_cons]; rw [hs x]]
    · rw [if_neg hc]
      exact ih hs

theorem dedupGo_eq_nil {s : List String} {m : List Tx}
    (hall : ∀ tx ∈ m, ∀ h, tx.hash = some h → h ≠ "" → h ∈ s) :
    dedupGo s m = [] := by
  induction m generalizing s with
  | nil => rfl
  | cons tx rest ih =>
    simp only [dedupGo]
    rw [if_neg (by
      intro hc
      exact hc.2 (hall tx (List.mem_cons_self _ _) _ (hash_of_truthy hc.1) hc.1))]
    exact ih fun t ht h hh hne => hall t (List.mem_cons_of_mem _ ht) h hh hne

theorem dedupGo_pairwise (s : List String) (l : List Tx) :
    (dedupGo s l).Pairwise (fun t1 t2 => t1.hash ≠ t2.hash) := by
  induction l generalizing s with
  | nil => exact List.Pairwise.nil
  | cons tx rest ih =>
    simp only [dedupGo]
    by_cases hc : tx.hash.getD "" ≠ "" ∧ tx.hash.getD "" ∉ s
    · rw [if_pos hc]
      refine List.Pairwise.cons ?_ (ih _)
      intro t ht
      obtain ⟨_, h', hh', _, hns'⟩ := mem_dedupGo ht
      intro hcontra
      have hgh : tx.hash.getD "" = h' :=
        Option.some.inj ((hash_of_truthy hc.1).symm.trans (hcontra.trans hh'))
      exact hns' (hgh ▸ List.mem_cons_self _ _)
    · rw [if_neg hc]; exact ih s

theorem dedupGo_keepFirst {s : List String} {l : List Tx} {tx : Tx}
    (htx : tx ∈ dedupGo s l) :
    l.find? (fun t => decide (t.hash = tx.hash)) = some tx := by
  induction l generalizing s with
  | nil => cases htx
  | cons t rest ih =>
    simp only [dedupGo] at htx
    by_cases hc : t.hash.getD "" ≠ "" ∧ t.hash.getD "" ∉ s
    · rw [if_pos hc] at htx
      rcases List.mem_cons.mp htx with rfl | hmem
      · exact List.find?_cons_of_pos _ (by simp)
      · obtain ⟨_, h', hh', _, hns'⟩ := mem_dedupGo hmem
        have hne2 : ¬(t.hash = tx.hash) := by
          rw [hh']
          intro hcontra
          have hgh : t.hash.getD "" = h' :=
            Option.some.inj ((hash_of_truthy hc.1).symm.trans hcontra)
          exact hns' (hgh ▸ List.mem_cons_self _ _)
        rw [List.find?_cons_of_neg _ (by simpa using hne2)]
        exact ih hmem
    · rw [if_neg hc] at htx
      obtain ⟨_, h', hh', hne', hns'⟩ := mem_dedupGo htx
      have hne2 : ¬(t.hash = tx.hash) := by
        rw [hh']
        intro hcontra
        have hg : t.hash.getD "" = h' := by rw [hcontra]; rfl
        rcases not_and_or.mp hc with hc1 | hc2
        · exact hne' (hg.symm.trans (not_not.mp hc1))
        · exact hns' (hg ▸ not_not.mp hc2)
      rw [List.find?_cons_of_neg _ (by simpa using hne2)]
      exact ih htx

/-! ## Sample records for concrete evaluations -/

/-- A record with a truthy hash. -/
def txA : Tx := ⟨some "0xaaa", some 38700000, "A"⟩

/-- A second record with a distinct truthy hash. -/
def txB : Tx := ⟨some "0xbbb", some 38700101, "B"⟩

/-- A duplicate of `txA` by transaction identifier, with different payload. -/
def txA2 : Tx := ⟨some "0xaaa", some 38700555, "A-dup"⟩

/-- A record whose `'hash'` key is missing. -/
def txNoHash : Tx := ⟨none, some 38700200, "N"⟩

/-! ## C3: dedup idempotence of merge -/

/-- **C3**: for every store state and batch, merging the same batch twice
yields the same store as merging it once; the merged result has pairwise
distinct transaction identifiers; and each merged record is the first
occurrence of its identifier in the concatenated input (later duplicates
are silently dropped). -/
theorem merge_dedup_idempotent :
    (∀ store batch : List Tx,
      mergeTxs (mergeTxs store batch) batch = mergeTxs store batch) ∧
    (∀ store batch : List Tx,
      (mergeTxs store batch).Pairwise (fun t1 t2 => t1.hash ≠ t2.hash)) ∧
    (∀ store batch : List Tx, ∀ tx ∈ mergeTxs store batch,
      (store ++ batch).find? (fun t => decide (t.hash = tx.hash)) = some tx) := by
  refine ⟨?_, ?_, ?_⟩
  · intro s b
    show dedupGo [] (dedupGo [] (s ++ b) ++ b) = dedupGo [] (s ++ b)
    rw [dedupGo_append]
    rw [dedupGo_dedupGo _ (fun x => Iff.rfl)]
    have hnil : dedupGo (seenAfter [] (dedupGo [] (s ++ b))) b = [] := by
      apply dedupGo_eq_nil
      intro tx htx h hh hne
      rw [mem_seenAfter_dedupGo]
      exact mem_seenAfter_of_mem (List.mem_append_right s htx) hh hne
    rw [hnil, List.append_nil]
  · intro s b
    exact dedupGo_pairwise [] _
  · intro s b tx htx
    exact dedupGo_keepFirst htx

/-- Witness for C3 at a concrete store and batch containing a duplicate. -/
theorem merge_dedup_idempotent_witness :
    txA ∈ mergeTxs [txA, txNoHash] [txB, txA2] ∧
    ([txA, txNoHash] ++ [txB, txA2]).find?
      (fun t => decide (t.hash = txA.hash)) = some txA :=
  ⟨by decide,
   merge_dedup_idempotent.2.2 [txA, txNoHash] [txB, txA2] txA (by decide)⟩

/-! ## C9: records without a transaction identifier are never merged -/

/-- **C9**: every record surviving the merge of `save_transactions`, and
every record surviving the per-cycle filter of `run_continuous` (the same
loop shape seeded with the store's hash set), carries a non-empty
transaction identifier; records with a missing or empty `'hash'` are
silently dropped, so the persisted store contains only identified
records. -/
theorem merged_store_hashes_truthy :
    (∀ existing incoming : List Tx, ∀ tx ∈ mergeTxs existing incoming,
      ∃ h, tx.hash = some h ∧ h ≠ "") ∧
    (∀ existingHashes : List String, ∀ batch : List Tx,
      ∀ tx ∈ dedupGo existingHashes batch,
      ∃ h, tx.hash = some h ∧ h ≠ "") := by
  constructor
  · intro e i tx htx
    obtain ⟨_, h, hh, hne, _⟩ := mem_dedupGo htx
    exact ⟨h, hh, hne⟩
  · intro hs b tx htx
    obtain ⟨_, h, hh, hne, _⟩ := mem_dedupGo htx
    exact ⟨h, hh, hne⟩

/-- Witness for C9 on a batch containing a hashless record. -/
theorem merged_store_hashes_truthy_witness :
    txB ∈ mergeTxs [txA, txNoHash] [txB, ⟨some "", some 1, "E"⟩] ∧
    (∃ h, txB.hash = some h ∧ h ≠ "") :=
  ⟨by decide,
   merged_store_hashes_truthy.1 [txA, txNoHash] [txB, ⟨some "", some 1, "E"⟩]
     txB (by decide)⟩

/-! ## C1: atomic persist, and what happens on a write failure -/

/-- **C1 (amended)**: `save_transactions` writes the merged list fully to a
temp file and installs it with one atomic rename, so after any prefix of
its filesystem operations (a crash at any point) and after any handled
exception the canonical store is either the old complete content or the
new complete merged content, and on a failure (`stepsRun < 3`) it is
exactly the old content; but a failure after the temp file exists is
caught and only logged — the call returns the merged list exactly as in
the success case, so the caller treats the merge as committed; the sole
failure that does reach `run_continuous` is `tempfile.mkstemp` itself
failing (`stepsRun = 0`), where the handler's reference to the unbound
`temp_path` raises `UnboundLocalError` out of the function. -/
theorem save_transactions_atomic :
    ∀ (fs : FsState) (existing incoming : List Tx) (stepsRun : Nat),
      ((save_transactions fs existing incoming stepsRun).fs.canonical =
          fs.canonical ∨
       (save_transactions fs existing incoming stepsRun).fs.canonical =
          mergeTxs existing incoming) ∧
      ((save_transactions fs existing incoming stepsRun).fs.canonical =
        if 3 ≤ stepsRun then mergeTxs existing incoming else fs.canonical) ∧
      (save_transactions fs existing incoming stepsRun).returned =
        (if stepsRun = 0 then none else some (mergeTxs existing incoming)) ∧
      (save_transactions fs existing incoming stepsRun).raised =
        decide (stepsRun = 0) ∧
      ∀ k, (runOps fs ((saveOps (mergeTxs existing incoming)).take k)).canonical
              = fs.canonical ∨
           (runOps fs ((saveOps (mergeTxs existing incoming)).take k)).canonical
              = mergeTxs existing incoming := by
  intro fs e i stepsRun
  have hops : ∀ k, (runOps fs ((saveOps (mergeTxs e i)).take k)).canonical
        = fs.canonical ∨
      (runOps fs ((saveOps (mergeTxs e i)).take k)).canonical = mergeTxs e i := by
    intro k
    rcases k with _ | _ | _ | n <;>
      simp [runOps, saveOps, applyOp, List.take]
  refine ⟨?_, ?_, ?_, ?_, hops⟩ <;>
    rcases stepsRun with _ | _ | _ | n <;>
      simp [save_transactions, runOps, saveOps, applyOp, List.take]

/-- **C1 (counterexample)**: with the canonical store holding `[txA]` and a
write failure occurring while writing the temp file (`stepsRun = 1`, the
temp file already created), the canonical file is untouched, but no error
reaches `run_continuous`: the call returns the merged list exactly as a
successful save would, so the caller cannot avoid treating the merge as
committed — refuting the claimed error surfacing. -/
theorem save_transactions_error_not_surfaced :
    (save_transactions ⟨[txA], none⟩ [txA] [txB] 1).raised = false ∧
    (save_transactions ⟨[txA], none⟩ [txA] [txB] 1).returned =
      some [txA, txB] ∧
    (save_transactions ⟨[txA], none⟩ [txA] [txB] 1).fs.canonical = [txA] := by
  decide

/-! ## C7: rate budget -/

/-- **C7**: `_rate_limit_wait` cannot fail, only delay: for consecutive
requests the new issue time is at least one second after the previous one,
and the recorded last-request time strictly advances on every acquire;
`_rotate_key` advances the credential index by one modulo the pool size;
and `_make_request` rotates the key precisely when an attempt reports
rate-limiting (HTTP 429 or a rate-limit body). -/
theorem rate_budget_spec :
    (∀ now last : ℚ, last ≤ now →
      1 ≤ rateLimitWait now last - last ∧ last < rateLimitWait now last) ∧
    (∀ i n : Nat, rotateKey i n = (i + 1) % n) ∧
    (∀ (n : Nat) (rest : List Attempt) (key : Nat),
      makeRequestGo n (Attempt.tooMany :: rest) key =
        makeRequestGo n rest (rotateKey key n)) ∧
    (∀ (n : Nat) (rest : List Attempt) (key : Nat),
      makeRequestGo n (Attempt.rateBody :: rest) key =
        makeRequestGo n rest (rotateKey key n)) ∧
    (∀ (n : Nat) (rest : List Attempt) (key : Nat),
      makeRequestGo n (Attempt.httpErr :: rest) key =
        makeRequestGo n rest key) := by
  refine ⟨?_, fun i n => rfl, fun n rest key => rfl, fun n rest key => rfl,
    fun n rest key => rfl⟩
  intro now last h
  unfold rateLimitWait
  by_cases hc : now - last < 1
  · rw [if_pos hc]
    constructor <;> linarith
  · rw [if_neg hc]
    push_neg at hc
    constructor <;> linarith

/-- Witness for C7 at concrete clock values. -/
theorem rate_budget_spec_witness :
    (3 : ℚ) ≤ 5 ∧
    (1 ≤ rateLimitWait 5 3 - 3 ∧ (3 : ℚ) < rateLimitWait 5 3) :=
  ⟨by norm_num, rate_budget_spec.1 5 3 (by norm_num)⟩

/-! ## C8: caught-up decision -/

theorem foldl_max_init_le (l : List Nat) (a : Nat) : a ≤ l.foldl Nat.max a := by
  induction l generalizing a with
  | nil => exact le_refl a
  | cons x l ih => exact le_trans (Nat.le_max_left a x) (ih _)

theorem le_foldl_max_of_mem {l : List Nat} {x : Nat} (hx : x ∈ l) (a : Nat) :
    x ≤ l.foldl Nat.max a := by
  induction l generalizing a with
  | nil => cases hx
  | cons y l ih =>
    rcases List.mem_cons.mp hx with rfl | hmem
    · exact le_trans (Nat.le_max_right a x) (foldl_max_init_le _ _)
    · exact ih hmem _

theorem foldl_max_mem (l : List Nat) (a : Nat) :
    l.foldl Nat.max a = a ∨ l.foldl Nat.max a ∈ l := by
  induction l generalizing a with
  | nil => exact Or.inl rfl
  | cons x l ih =>
    rcases ih (Nat.max a x) with h | h
    · have hchoice : Nat.max a x = a ∨ Nat.max a x = x := by
        rcases Nat.le_total a x with hle | hle
        · exact Or.inr (Nat.max_eq_right hle)
        · exact Or.inl (Nat.max_eq_left hle)
      rcases hchoice with hm | hm
      · exact Or.inl (by rw [List.foldl_cons, h, hm])
      · exact Or.inr (by rw [List.foldl_cons, h, hm]; exact List.mem_cons_self _ _)
    · exact Or.inr (List.mem_cons_of_mem _ h)

/-- **C8**: the cycle ends caught up exactly when the newest saved block is
within 100 blocks of the chain head (`max_saved_block ≥ current_block -
100`, i.e. `current_block ≤ max_saved_block + 100`); `max_saved_block`
bounds every stored block number and is itself stored (or `0` for a store
with no block numbers); the loop then sleeps 60 seconds, else only 5. -/
theorem caught_up_spec :
    (∀ (finalTxs : List Tx) (currentBlock : Nat),
      caughtUp finalTxs currentBlock = true ↔
        currentBlock ≤ maxSavedBlock finalTxs + 100) ∧
    (∀ finalTxs : List Tx, ∀ tx ∈ finalTxs, ∀ b : Nat,
      tx.blockNumber = some b → b ≤ maxSavedBlock finalTxs) ∧
    (∀ finalTxs : List Tx, maxSavedBlock finalTxs = 0 ∨
      ∃ tx ∈ finalTxs, tx.blockNumber = some (maxSavedBlock finalTxs)) ∧
    (∀ (finalTxs : List Tx) (currentBlock : Nat),
      cycleSleep finalTxs currentBlock =
        if caughtUp finalTxs currentBlock then 60 else 5) := by
  refine ⟨?_, ?_, ?_, fun finalTxs currentBlock => rfl⟩
  · intro finalTxs currentBlock
    simp only [caughtUp, decide_eq_true_eq]
    omega
  · intro finalTxs tx htx b hb
    exact le_foldl_max_of_mem (List.mem_filterMap.mpr ⟨tx, htx, hb⟩) 0
  · intro finalTxs
    rcases foldl_max_mem (finalTxs.filterMap Tx.blockNumber) 0 with h | h
    · exact Or.inl h
    · obtain ⟨tx, htx, hb⟩ := List.mem_filterMap.mp h
      exact Or.inr ⟨tx, htx, hb⟩

/-- Witness for C8 on a one-record store. -/
theorem caught_up_spec_witness :
    (caughtUp [txA] 38700050 = true ↔
      38700050 ≤ maxSavedBlock [txA] + 100) ∧
    txA ∈ [txA] ∧ txA.blockNumber = some 38700000 ∧
    38700000 ≤ maxSavedBlock [txA] :=
  ⟨caught_up_spec.1 [txA] 38700050, by decide, rfl,
   caught_up_spec.2.1 [txA] txA (by decide) 38700000 rfl⟩

/-! ## C4: gap detection -/

/-- `a` and `b` are an adjacent pair in `l` (`blocks[i-1]`, `blocks[i]`
for some `i`). -/
def ConsecPair (l : List Nat) (a b : Nat) : Prop :=
  ∃ l1 l2 : List Nat, l = l1 ++ a :: b :: l2

theorem consecPair_nil {a b : Nat} : ¬ ConsecPair [] a b := by
  rintro ⟨l1, l2, heq⟩
  cases l1 <;> simp at heq

theorem consecPair_single {x a b : Nat} : ¬ ConsecPair [x] a b := by
  rintro ⟨l1, l2, heq⟩
  cases l1 with
  | nil => simp at heq
  | cons z l1 => cases l1 <;> simp at heq

theorem consecPair_cons_cons {x y a b : Nat} {rest : List Nat} :
    ConsecPair (x :: y :: rest) a b ↔
      (a = x ∧ b = y) ∨ ConsecPair (y :: rest) a b := by
  constructor
  · rintro ⟨l1, l2, heq⟩
    cases l1 with
    | nil =>
      simp only [List.nil_append, List.cons.injEq] at heq
      exact Or.inl ⟨heq.1.symm, heq.2.1.symm⟩
    | cons z l1 =>
      simp only [List.cons_append, List.cons.injEq] at heq
      exact Or.inr ⟨l1, l2, heq.2⟩
  · rintro (⟨rfl, rfl⟩ | ⟨l1, l2, heq⟩)
    · exact ⟨[], rest, rfl⟩
    · exact ⟨x :: l1, l2, by rw [List.cons_append, heq]⟩

theorem consecPair_mem_left {l : List Nat} {a b : Nat}
    (h : ConsecPair l a b) : a ∈ l := by
  obtain ⟨l1, l2, rfl⟩ := h
  simp

theorem internalGaps_mem : ∀ (l : List Nat) (g : Nat × Option Nat),
    g ∈ internalGaps l ↔
      ∃ a b, ConsecPair l a b ∧ 1000 < b - a ∧ g = (a + 1, some (b - 1))
  | [], g => by
    simp only [internalGaps, List.not_mem_nil, false_iff]
    rintro ⟨a, b, hcp, -, -⟩
    exact consecPair_nil hcp
  | [x], g => by
    simp only [internalGaps, List.not_mem_nil, false_iff]
    rintro ⟨a, b, hcp, -, -⟩
    exact consecPair_single hcp
  | x :: y :: rest, g => by
    rw [internalGaps, List.mem_append]
    constructor
    · rintro (hg | hg)
      · by_cases hc : 1000 < y - x
        · rw [if_pos hc] at hg
          rcases List.mem_singleton.mp hg with rfl
          exact ⟨x, y, consecPair_cons_cons.mpr (Or.inl ⟨rfl, rfl⟩), hc, rfl⟩
        · rw [if_neg hc] at hg
          cases hg
      · obtain ⟨a, b, hcp, hlt, hge⟩ := (internalGaps_mem (y :: rest) g).mp hg
        exact ⟨a, b, consecPair_cons_cons.mpr (Or.inr hcp), hlt, hge⟩
    · rintro ⟨a, b, hcp, hlt, rfl⟩
      rcases consecPair_cons_cons.mp hcp with ⟨rfl, rfl⟩ | hcp'
      · exact Or.inl (by rw [if_pos hlt]; exact List.mem_singleton_self _)
      · exact Or.inr ((internalGaps_mem (y :: rest) _).mpr ⟨a, b, hcp', hlt, rfl⟩)

theorem internalGaps_pairwise : ∀ {l : List Nat}, l.Sorted (· < ·) →
    (internalGaps l).Pairwise (fun g1 g2 => g1.1 < g2.1)
  | [], _ => List.Pairwise.nil
  | [_], _ => List.Pairwise.nil
  | x :: y :: rest, hl => by
    rw [internalGaps]
    apply List.pairwise_append.mpr
    refine ⟨?_, internalGaps_pairwise hl.of_cons, ?_⟩
    · by_cases hc : 1000 < y - x <;> simp [hc]
    · intro g1 hg1 g2 hg2
      by_cases hc : 1000 < y - x
      · rw [if_pos hc] at hg1
        rcases List.mem_singleton.mp hg1 with rfl
        obtain ⟨a, b, hcp, -, hg2eq⟩ :=
          (internalGaps_mem (y :: rest) g2).mp hg2
        have ha : a ∈ y :: rest := consecPair_mem_left hcp
        have hxa : x < a := List.rel_of_sorted_cons hl a ha
        rw [hg2eq]
        simpa using hxa
      · rw [if_neg hc] at hg1
        cases hg1

theorem sortedBlocks_sorted (txs : List Tx) :
    (sortedBlocks txs).Sorted (· < ·) := by
  have h1 : (List.insertionSort (· ≤ ·)
      (txs.filterMap Tx.blockNumber)).Sorted (· ≤ ·) :=
    List.sorted_insertionSort _ _
  have h3 : (sortedBlocks txs).Sorted (· ≤ ·) :=
    List.Pairwise.sublist (List.dedup_sublist _) h1
  exact h3.lt_of_le (List.nodup_dedup _)

theorem mem_sortedBlocks {txs : List Tx} {n : Nat} :
    n ∈ sortedBlocks txs ↔ ∃ tx ∈ txs, tx.blockNumber = some n := by
  simp [sortedBlocks, List.mem_dedup, List.mem_insertionSort,
    List.mem_filterMap]

/-- **C4**: on a record set whose block numbers are non-empty,
`identify_gaps` succeeds; its block list is the sorted list of the
distinct block numbers present; a gap is emitted exactly when it is the
leading gap `[origin, lowest-1]` (emitted precisely if the lowest
observed block exceeds the origin `TOKEN_START_BLOCK`) or the interval
`[prev+1, next-1]` of an adjacent observed pair more than the tolerance
(1000) apart; the gaps are in ascending order; and on the store with
blocks {1000, 1001, 4000} the result is exactly the single gap
`[1002, 3999]`. -/
theorem identify_gaps_spec :
    (∀ (txs : List Tx) (b0 : Nat) (bs : List Nat),
      txs ≠ [] → sortedBlocks txs = b0 :: bs →
      ∃ gs, identify_gaps txs = some gs ∧
        ((b0 :: bs).Sorted (· < ·) ∧
          (∀ n, n ∈ b0 :: bs ↔ ∃ tx ∈ txs, tx.blockNumber = some n)) ∧
        (∀ g, g ∈ gs ↔
          (TOKEN_START_BLOCK < b0 ∧ g = (TOKEN_START_BLOCK, some (b0 - 1))) ∨
          (∃ a b, ConsecPair (b0 :: bs) a b ∧ 1000 < b - a ∧
            g = (a + 1, some (b - 1)))) ∧
        gs.Pairwise (fun g1 g2 => g1.1 < g2.1)) ∧
    identify_gaps [⟨some "t1", some 1000, ""⟩, ⟨some "t2", some 1001, ""⟩,
      ⟨some "t3", some 4000, ""⟩] = some [(1002, some 3999)] := by
  constructor
  · intro txs b0 bs hne hsb
    have hsorted : (b0 :: bs).Sorted (· < ·) := hsb ▸ sortedBlocks_sorted txs
    have hempty : ¬ txs.isEmpty = true := by
      simpa [List.isEmpty_iff] using hne
    have hsome : identify_gaps txs =
        some ((if TOKEN_START_BLOCK < b0
               then [(TOKEN_START_BLOCK, some (b0 - 1))] else []) ++
              internalGaps (b0 :: bs)) := by
      rw [identify_gaps, if_neg hempty, if_neg (by rw [hsb]; simp), hsb]
      simp
    refine ⟨_, hsome, ⟨hsorted, fun n => hsb ▸ mem_sortedBlocks⟩, ?_, ?_⟩
    · intro g
      rw [List.mem_append, internalGaps_mem]
      by_cases hc : TOKEN_START_BLOCK < b0
      · rw [if_pos hc]
        simp only [List.mem_singleton]
        constructor
        · rintro (rfl | h)
          · exact Or.inl ⟨hc, rfl⟩
          · exact Or.inr h
        · rintro (⟨-, rfl⟩ | h)
          · exact Or.inl rfl
          · exact Or.inr h
      · rw [if_neg hc]
        simp only [List.not_mem_nil, false_or]
        constructor
        · exact Or.inr
        · rintro (⟨hc', -⟩ | h)
          · exact absurd hc' hc
          · exact h
    · apply List.pairwise_append.mpr
      refine ⟨?_, internalGaps_pairwise hsorted, ?_⟩
      · by_cases hc : TOKEN_START_BLOCK < b0 <;> simp [hc]
      · intro g1 hg1 g2 hg2
        by_cases hc : TOKEN_START_BLOCK < b0
        · rw [if_pos hc] at hg1
          rcases List.mem_singleton.mp hg1 with rfl
          obtain ⟨a, b, hcp, -, hg2eq⟩ :=
            (internalGaps_mem (b0 :: bs) g2).mp hg2
          have ha : a ∈ b0 :: bs := consecPair_mem_left hcp
          have hb0a : b0 ≤ a := by
            rcases List.mem_cons.mp ha with rfl | hmem
            · exact le_refl _
            · exact le_of_lt (List.rel_of_sorted_cons hsorted a hmem)
          rw [hg2eq]
          show TOKEN_START_BLOCK < a + 1
          omega
        · rw [if_neg hc] at hg1
          cases hg1
  · decide

/-- Witness for C4: the general statement applied to the example store
with blocks {1000, 1001, 4000}. -/
theorem identify_gaps_spec_witness :
    ([⟨some "t1", some 1000, ""⟩, ⟨some "t2", some 1001, ""⟩,
        ⟨some "t3", some 4000, ""⟩] : List Tx) ≠ [] ∧
    sortedBlocks [⟨some "t1", some 1000, ""⟩, ⟨some "t2", some 1001, ""⟩,
        ⟨some "t3", some 4000, ""⟩] = 1000 :: [1001, 4000] ∧
    (∃ gs, identify_gaps [⟨some "t1", some 1000, ""⟩,
          ⟨some "t2", some 1001, ""⟩, ⟨some "t3", some 4000, ""⟩] = some gs ∧
        ((1000 :: [1001, 4000]).Sorted (· < ·) ∧
          (∀ n, n ∈ 1000 :: [1001, 4000] ↔
            ∃ tx ∈ [⟨some "t1", some 1000, ""⟩, ⟨some "t2", some 1001, ""⟩,
              (⟨some "t3", some 4000, ""⟩ : Tx)],
              tx.blockNumber = some n)) ∧
        (∀ g, g ∈ gs ↔
          (TOKEN_START_BLOCK < 1000 ∧
            g = (TOKEN_START_BLOCK, some (1000 - 1))) ∨
          (∃ a b, ConsecPair (1000 :: [1001, 4000]) a b ∧ 1000 < b - a ∧
            g = (a + 1, some (b - 1)))) ∧
        gs.Pairwise (fun g1 g2 => g1.1 < g2.1)) :=
  ⟨by decide, by decide,
   identify_gaps_spec.1 [⟨some "t1", some 1000, ""⟩,
     ⟨some "t2", some 1001, ""⟩, ⟨some "t3", some 4000, ""⟩]
     1000 [1001, 4000] (by decide) (by decide)⟩

/-! ## C2: cap handling in the adaptive window fetcher -/

/-- **C2**: when a window query returns a batch whose size is at or within
10 of the cap (`count >= MAX_RESULTS_PER_QUERY - 10`), the fetcher with a
window above the minimum discards that batch and recurses on the *same*
start cursor with the halved window (clamped to the minimum, and strictly
smaller than before), so a capped batch is never accepted as complete;
only at the minimum window (`br = MIN_BLOCK_RANGE`, the only case left by
`MIN_BLOCK_RANGE ≤ br`) is the capped batch accepted. -/
theorem fetch_range_cap_handling :
    ∀ (api : Nat → Nat → Option (List Tx)) (cs e br : Nat)
      (results : List Tx),
      cs ≤ e → MIN_BLOCK_RANGE ≤ br →
      api cs (min (cs + br - 1) e) = some results →
      MAX_RESULTS_PER_QUERY - 10 ≤ results.length →
      fetch_range api cs e br =
        (if MIN_BLOCK_RANGE < br then
          fetch_range api cs (min (cs + br - 1) e)
            (max (br / 2) MIN_BLOCK_RANGE)
         else results) ++ fetch_range api (min (cs + br - 1) e + 1) e br ∧
      (MIN_BLOCK_RANGE < br →
        MIN_BLOCK_RANGE ≤ max (br / 2) MIN_BLOCK_RANGE ∧
        max (br / 2) MIN_BLOCK_RANGE < br) := by
  intro api cs e br results hce hbr hres hcap
  have h100 : MIN_BLOCK_RANGE = 100 := rfl
  constructor
  · rw [fetch_range, dif_pos ⟨hce, by omega⟩]
    split
    next heq => rw [heq] at hres; cases hres
    next res heq =>
      rw [heq] at hres
      injection hres with hres'
      subst hres'
      rw [if_pos hcap]
      by_cases hmin : MIN_BLOCK_RANGE < br <;> simp [hmin]
  · intro hmin
    exact ⟨le_max_right _ _, by omega⟩

/-- An API stub returning a full cap-sized batch for every window. -/
def apiCapStub : Nat → Nat → Option (List Tx) :=
  fun _ _ => some (List.replicate 10000 txA)

/-- Witness for C2: the cap-handling theorem at the stub that always
returns exactly the cap, on the window `[origin, origin + 4999]` with the
default window size. -/
theorem fetch_range_cap_handling_witness :
    TOKEN_START_BLOCK ≤ TOKEN_START_BLOCK + 4999 ∧
    MIN_BLOCK_RANGE ≤ MAX_BLOCK_RANGE ∧
    apiCapStub TOKEN_START_BLOCK
        (min (TOKEN_START_BLOCK + MAX_BLOCK_RANGE - 1)
          (TOKEN_START_BLOCK + 4999)) =
      some (List.replicate 10000 txA) ∧
    MAX_RESULTS_PER_QUERY - 10 ≤ (List.replicate 10000 txA).length ∧
    (fetch_range apiCapStub TOKEN_START_BLOCK (TOKEN_START_BLOCK + 4999)
        MAX_BLOCK_RANGE =
      (if MIN_BLOCK_RANGE < MAX_BLOCK_RANGE then
        fetch_range apiCapStub TOKEN_START_BLOCK
          (min (TOKEN_START_BLOCK + MAX_BLOCK_RANGE - 1)
            (TOKEN_START_BLOCK + 4999))
          (max (MAX_BLOCK_RANGE / 2) MIN_BLOCK_RANGE)
       else List.replicate 10000 txA) ++
        fetch_range apiCapStub
          (min (TOKEN_START_BLOCK + MAX_BLOCK_RANGE - 1)
            (TOKEN_START_BLOCK + 4999) + 1)
          (TOKEN_START_BLOCK + 4999) MAX_BLOCK_RANGE ∧
      (MIN_BLOCK_RANGE < MAX_BLOCK_RANGE →
        MIN_BLOCK_RANGE ≤ max (MAX_BLOCK_RANGE / 2) MIN_BLOCK_RANGE ∧
        max (MAX_BLOCK_RANGE / 2) MIN_BLOCK_RANGE < MAX_BLOCK_RANGE)) :=
  ⟨Nat.le_add_right _ _, by norm_num [MIN_BLOCK_RANGE, MAX_BLOCK_RANGE], rfl,
   by rw [List.length_replicate]; norm_num [MAX_RESULTS_PER_QUERY],
   fetch_range_cap_handling apiCapStub TOKEN_START_BLOCK
     (TOKEN_START_BLOCK + 4999) MAX_BLOCK_RANGE (List.replicate 10000 txA)
     (Nat.le_add_right _ _) (by norm_num [MIN_BLOCK_RANGE, MAX_BLOCK_RANGE])
     rfl (by rw [List.length_replicate]; norm_num [MAX_RESULTS_PER_QUERY])⟩

/-! ## Window coverage of the fetch loop (used by C6 and C10) -/

/-- Every window `fetch_range` queries lies inside the target `[cs, e]`,
and together the queried windows cover every block of `[cs, e]`. -/
theorem queriedWindows_cover (api : Nat → Nat → Option (List Tx)) :
    ∀ cs e br : Nat, cs ≤ e → 1 ≤ br →
      (∀ w ∈ queriedWindows api cs e br, cs ≤ w.1 ∧ w.1 ≤ w.2 ∧ w.2 ≤ e) ∧
      (∀ x, cs ≤ x → x ≤ e → ∃ w ∈ queriedWindows api cs e br,
        w.1 ≤ x ∧ x ≤ w.2) := by
  intro cs e br
  induction cs, e, br using queriedWindows.induct api with
  | case2 cs e br h =>
    intro hce hbr
    exact absurd ⟨hce, hbr⟩ h
  | case1 cs e br h ih1 ih2 =>
    intro hce hbr
    have h100 : MIN_BLOCK_RANGE = 100 := rfl
    have hcs_ce : cs ≤ min (cs + br - 1) e := by omega
    have hce_e : min (cs + br - 1) e ≤ e := by omega
    have htail : ∀ w ∈ queriedWindows api (min (cs + br - 1) e + 1) e br,
        cs ≤ w.1 ∧ w.1 ≤ w.2 ∧ w.2 ≤ e := by
      by_cases hlast : min (cs + br - 1) e + 1 ≤ e
      · intro w hw
        obtain ⟨hA, hB, hC⟩ := (ih1 hlast hbr).1 w hw
        exact ⟨by omega, hB, hC⟩
      · rw [queriedWindows, dif_neg (by omega)]
        intro w hw
        cases hw
    have htailcov : ∀ x, min (cs + br - 1) e < x → x ≤ e →
        ∃ w ∈ queriedWindows api (min (cs + br - 1) e + 1) e br,
          w.1 ≤ x ∧ x ≤ w.2 := by
      intro x hx1 hx2
      exact (ih1 (by omega) hbr).2 x (by omega) hx2
    have hsub : MIN_BLOCK_RANGE < br →
        ∀ w ∈ queriedWindows api cs (min (cs + br - 1) e)
            (max (br / 2) MIN_BLOCK_RANGE),
          cs ≤ w.1 ∧ w.1 ≤ w.2 ∧ w.2 ≤ e := by
      intro hmin w hw
      obtain ⟨hA, hB, hC⟩ := (ih2 hmin hcs_ce (by omega)).1 w hw
      exact ⟨hA, hB, by omega⟩
    constructor
    · intro w hw
      rw [queriedWindows, dif_pos h] at hw
      rcases List.mem_cons.mp hw with rfl | hw'
      · exact ⟨le_refl _, hcs_ce, hce_e⟩
      · have hw2 : w ∈ queriedWindows api (min (cs + br - 1) e + 1) e br ∨
            (MIN_BLOCK_RANGE < br ∧
             w ∈ queriedWindows api cs (min (cs + br - 1) e)
                (max (br / 2) MIN_BLOCK_RANGE)) := by
          split at hw'
          · exact Or.inl hw'
          · split at hw'
            · split at hw'
              · rcases List.mem_append.mp hw' with hmem | hmem
                · exact Or.inr ⟨by assumption, hmem⟩
                · exact Or.inl hmem
              · exact Or.inl hw'
            · exact Or.inl hw'
        rcases hw2 with hmem | ⟨hmin, hmem⟩
        · exact htail w hmem
        · exact hsub hmin w hmem
    · intro x hx1 hx2
      rw [queriedWindows, dif_pos h]
      by_cases hxce : x ≤ min (cs + br - 1) e
      · exact ⟨(cs, min (cs + br - 1) e), List.mem_cons_self _ _, hx1, hxce⟩
      · obtain ⟨w, hw, hwx⟩ := htailcov x (by omega) hx2
        refine ⟨w, List.mem_cons_of_mem _ ?_, hwx⟩
        split
        · exact hw
        · split
          · split
            · exact List.mem_append_right _ hw
            · exact hw
          · exact hw

/-- The extend-to-head phase queries windows lying inside and covering
exactly `[currentMax + 1, head]` (and nothing when `head ≤ currentMax`). -/
theorem extendWindows_cover (api : Nat → Nat → Option (List Tx))
    (cp head x : Nat) :
    (∃ w ∈ extendWindows api cp head, w.1 ≤ x ∧ x ≤ w.2) ↔
      cp + 1 ≤ x ∧ x ≤ head := by
  rw [extendWindows]
  by_cases hlt : cp < head
  · rw [if_pos hlt]
    have hcover := queriedWindows_cover api (cp + 1) head MAX_BLOCK_RANGE
      (by omega) (by norm_num [MAX_BLOCK_RANGE])
    constructor
    · rintro ⟨w, hw, hx1, hx2⟩
      obtain ⟨hA, -, hC⟩ := hcover.1 w hw
      exact ⟨by omega, by omega⟩
    · rintro ⟨hx1, hx2⟩
      exact hcover.2 x hx1 hx2
  · rw [if_neg hlt]
    constructor
    · rintro ⟨w, hw, -⟩
      cases hw
    · rintro ⟨hx1, hx2⟩
      omega

/-! ## C6: derived checkpoint and extend-to-head -/

/-- **C6**: the checkpoint is recomputed from the loaded store each cycle:
for the empty store it is `TOKEN_START_BLOCK - 1`, and for a non-empty
store it is the maximum block number present (attained by some stored
record and bounding all of them); the extend-to-head phase then queries
windows lying inside and covering exactly `[checkpoint + 1, head]`. -/
theorem checkpoint_derived_extend_exact :
    (∀ existing : List Tx, existing = [] →
      computeCheckpoint existing = some (TOKEN_START_BLOCK - 1)) ∧
    (∀ (existing : List Tx) (cp : Nat),
      computeCheckpoint existing = some cp → existing ≠ [] →
      (∀ tx ∈ existing, ∀ b, tx.blockNumber = some b → b ≤ cp) ∧
      (∃ tx ∈ existing, tx.blockNumber = some cp)) ∧
    (∀ (api : Nat → Nat → Option (List Tx)) (cp head x : Nat),
      (∃ w ∈ extendWindows api cp head, w.1 ≤ x ∧ x ≤ w.2) ↔
        cp + 1 ≤ x ∧ x ≤ head) := by
  refine ⟨?_, ?_, extendWindows_cover⟩
  · intro existing hemp
    subst hemp
    rfl
  · intro existing cp hcp hne
    rw [computeCheckpoint, if_neg (by simpa [List.isEmpty_iff] using hne)]
      at hcp
    constructor
    · intro tx htx b hb
      have hmem : b ∈ existing.filterMap Tx.blockNumber :=
        List.mem_filterMap.mpr ⟨tx, htx, hb⟩
      cases hfm : existing.filterMap Tx.blockNumber with
      | nil => rw [hfm] at hmem; cases hmem
      | cons c cs =>
        rw [hfm] at hcp hmem
        injection hcp with hcp'
        subst hcp'
        exact le_foldl_max_of_mem hmem 0
    · cases hfm : existing.filterMap Tx.blockNumber with
      | nil => rw [hfm] at hcp; cases hcp
      | cons c cs =>
        rw [hfm] at hcp
        injection hcp with hcp'
        subst hcp'
        have hmem : maxBlock (c :: cs) ∈ c :: cs := by
          show (c :: cs).foldl Nat.max 0 ∈ c :: cs
          rcases foldl_max_mem (c :: cs) 0 with hzero | hmem
          · have hcle : c ≤ (c :: cs).foldl Nat.max 0 :=
              le_foldl_max_of_mem (List.mem_cons_self _ _) 0
            rw [hzero] at hcle ⊢
            have hc0 : c = 0 := Nat.le_zero.mp hcle
            rw [← hc0]
            exact List.mem_cons_self _ _
          · exact hmem
        have hmem2 : maxBlock (c :: cs) ∈ existing.filterMap Tx.blockNumber := by
          rw [hfm]
          exact hmem
        obtain ⟨tx, htx, hb⟩ := List.mem_filterMap.mp hmem2
        exact ⟨tx, htx, hb⟩

/-- Witness for C6: checkpoint of the empty store and of a one-record
store, with the bound and attainment instantiated. -/
theorem checkpoint_derived_extend_exact_witness :
    computeCheckpoint [] = some (TOKEN_START_BLOCK - 1) ∧
    computeCheckpoint [txA] = some 38700000 ∧
    ([txA] : List Tx) ≠ [] ∧
    ((∀ tx ∈ [txA], ∀ b, tx.blockNumber = some b → b ≤ 38700000) ∧
      (∃ tx ∈ [txA], tx.blockNumber = some 38700000)) :=
  ⟨checkpoint_derived_extend_exact.1 [] rfl, by decide, by decide,
   checkpoint_derived_extend_exact.2.1 [txA] 38700000 (by decide) (by decide)⟩

/-! ## C10: bootstrap from the empty store -/

/-- **C10**: the empty store yields the single open-ended gap
`(origin, None)`; the empty-store checkpoint is `origin - 1`; resolving
the gap's open end to that checkpoint gives `end < start`, so the
gap-filling loop skips it and fetches nothing; and whenever the chain
head is at or past the origin, the extend-to-head phase alone queries
windows covering exactly the whole history `[origin, head]`. -/
theorem empty_store_bootstrap :
    identify_gaps [] = some [(TOKEN_START_BLOCK, none)] ∧
    computeCheckpoint [] = some (TOKEN_START_BLOCK - 1) ∧
    gapFillPlan [(TOKEN_START_BLOCK, none)] (TOKEN_START_BLOCK - 1) = [] ∧
    (∀ (api : Nat → Nat → Option (List Tx)) (head x : Nat),
      TOKEN_START_BLOCK ≤ head →
      ((∃ w ∈ extendWindows api (TOKEN_START_BLOCK - 1) head,
          w.1 ≤ x ∧ x ≤ w.2) ↔
        TOKEN_START_BLOCK ≤ x ∧ x ≤ head)) := by
  refine ⟨rfl, rfl, by decide, ?_⟩
  intro api head x hhead
  have hiff := extendWindows_cover api (TOKEN_START_BLOCK - 1) head x
  have hS : TOKEN_START_BLOCK = 38699339 := rfl
  constructor
  · intro hex
    have := hiff.mp hex
    omega
  · intro hx
    exact hiff.mpr (by omega)

/-- Witness for C10 at a concrete head past the origin. -/
theorem empty_store_bootstrap_witness :
    TOKEN_START_BLOCK ≤ TOKEN_START_BLOCK + 1000 ∧
    ((∃ w ∈ extendWindows (fun _ _ => some ([] : List Tx))
        (TOKEN_START_BLOCK - 1) (TOKEN_START_BLOCK + 1000),
        w.1 ≤ TOKEN_START_BLOCK ∧ TOKEN_START_BLOCK ≤ w.2) ↔
      TOKEN_START_BLOCK ≤ TOKEN_START_BLOCK ∧
        TOKEN_START_BLOCK ≤ TOKEN_START_BLOCK + 1000) :=
  ⟨Nat.le_add_right _ _,
   empty_store_bootstrap.2.2.2 (fun _ _ => some []) (TOKEN_START_BLOCK + 1000)
     TOKEN_START_BLOCK (Nat.le_add_right _ _)⟩

/-! ## C5: skipped windows and re-offering -/

/-- **C5 (evaluation at the failing input)**: when every request for the
window `[38700001, 38700100]` fails (`_make_request` returns `None` after
its retries), `fetch_range` advances past the window and returns nothing —
and records the skipped range nowhere (the `# Don't skip, add to retry
list` comment has no corresponding list).  With records stored at the
neighbouring blocks 38700000 and 38700101, the abandoned 100-block window
is uncovered, yet `identify_gaps` emits only the leading gap, which ends
at 38699999, before the abandoned window: the gap detector never
re-offers an uncovered interval of at most the 1000-block tolerance, so
the skipped window is silently lost. -/
theorem skipped_window_not_reoffered :
    fetch_range (fun _ _ => none) 38700001 38700100 MAX_BLOCK_RANGE = [] ∧
    identify_gaps [⟨some "a1", some 38700000, ""⟩,
        ⟨some "a2", some 38700101, ""⟩] =
      some [(TOKEN_START_BLOCK, some 38699999)] ∧
    38699999 < 38700001 := by
  refine ⟨?_, by decide, by norm_num⟩
  rw [fetch_range, dif_pos (by norm_num [MAX_BLOCK_RANGE])]
  show fetch_range (fun _ _ => none)
      (min (38700001 + MAX_BLOCK_RANGE - 1) 38700100 + 1) 38700100
      MAX_BLOCK_RANGE = []
  rw [fetch_range, dif_neg (by norm_num [MAX_BLOCK_RANGE])]
